import Mathlib

/-!
Shallow embedding of the gcal-audit categorization and time-aggregation
engine (src/analyze.py, src/gcal/analyze.py, src/gcal/audit.py).

Modelling conventions:
* Event timestamps are integer seconds at a fixed UTC offset (the wire
  format delivers RFC3339 datetimes at second resolution).  All duration
  arithmetic the code performs on `total_seconds()` floats is then exact
  (sums of integers far below 2^53), so durations and accumulated totals
  are modelled as integers.
* Python dicts are association lists with insertion order: assignment to a
  present key updates it in place, assignment to a fresh key appends.
* `sorted(..., key=lambda item: item[1], reverse=True)` is a stable sort by
  descending value; `List.insertionSort` with the descending relation is
  extensionally the same function (both are stable sorts by the same key).
* `print_analysis` is modelled as the list of table rows it prints (label,
  duration cell, percentage cell), or the exception it raises: a
  `ValueError` from `max()` on an empty mapping, and for the variants that
  divide by `self._total_duration`, a `ZeroDivisionError` when that window
  length is zero.  Column centering/padding of the final text lines carries
  no information about the cell contents and is not modelled.
* `round(seconds / total * 100, 2)` is modelled as exact half-to-even
  rounding of the rational `seconds * 10000 / total` to an integer number
  of hundredths (Python rounds the nearest binary double, which agrees
  except on razor-thin boundary cases that no integer-second event hits
  here); `f"{v:.2f}"` always prints two decimals, while `f"{v}"` prints the
  shortest decimal form of the rounded value (`"50.0"`, `"8.33"`).
-/

/-- Characters removed by Python `str.strip()` (ASCII whitespace). -/
def isPySpace (c : Char) : Bool :=
  c = ' ' ∨ c = '\t' ∨ c = '\n' ∨ c = '\r' ∨ c = Char.ofNat 11 ∨ c = Char.ofNat 12

/-- Python `str.strip()`: drop leading and trailing whitespace. -/
def pyStrip (l : List Char) : List Char :=
  ((l.dropWhile isPySpace).reverse.dropWhile isPySpace).reverse

/-- Python `str.split(",")`: always returns at least one piece (splitting
the empty string yields a list holding one empty string). -/
def splitOnComma : List Char → List (List Char)
  | [] => [[]]
  | c :: rest =>
    if c = ',' then [] :: splitOnComma rest
    else
      match splitOnComma rest with
      | [] => [[c]]
      | g :: gs => (c :: g) :: gs

/-- The lazy capture of the tag pattern starting right after the opening
marker: take characters up to the first closing bracket; fail if a newline
(which `.` does not match) or the end of the string comes first. -/
def captureTag : List Char → Option (List Char)
  | [] => none
  | c :: rest =>
    if c = ']' then some []
    else if c = '\n' then none
    else (captureTag rest).map (fun cap => c :: cap)

/-- First match of the `[Tags:` pattern search: scan left to right for the
opening marker, and at each candidate start try the lazy capture; on
failure the scan advances one character, as the regex engine does. -/
def findTagBlock : List Char → Option (List Char)
  | [] => none
  | c :: rest =>
    if List.take 6 (c :: rest) = "[Tags:".data then
      match captureTag (List.drop 6 (c :: rest)) with
      | some cap => some cap
      | none => findTagBlock rest
    else findTagBlock rest

/-- A raw calendar event as the engine sees it: `summary`, optional
`description`, and start/end timestamps in seconds (fixed UTC offset). -/
structure Event where
  summary : String
  description : Option String
  startSecs : Int
  endSecs : Int
deriving DecidableEq, Repr

/-- The `extract_duration` helper: end minus start, in seconds. -/
def duration (e : Event) : ℤ :=
  e.endSecs - e.startSecs

/-- The `extract_event_types` helper of src/analyze.py: categories from the
first tag block of the description, each comma-piece stripped; fall back to
the one-element list holding the summary when the description is absent or
has no tag block. -/
def extract_event_types (e : Event) : List String :=
  match e.description with
  | none => [e.summary]
  | some desc =>
    match findTagBlock desc.data with
    | none => [e.summary]
    | some cap => (splitOnComma cap).map (fun g => String.mk (pyStrip g))

/-- The `extract_event_categories` method of `GCalAuditor`: as
`extract_event_types`, but when `first_tag_only` is set only the first
comma-piece is kept. -/
def extract_event_categories (firstTagOnly : Bool) (e : Event) : List String :=
  match e.description with
  | none => [e.summary]
  | some desc =>
    match findTagBlock desc.data with
    | none => [e.summary]
    | some cap =>
      if firstTagOnly then
        [String.mk (pyStrip ((splitOnComma cap).headD []))]
      else (splitOnComma cap).map (fun g => String.mk (pyStrip g))

/-- Python `dict.get(k, d)`: value of the first (only) entry with key `k`,
or the default. -/
def dictGet (m : List (String × ℤ)) (k : String) (d : ℤ) : ℤ :=
  match m with
  | [] => d
  | (k', v') :: rest => if k' = k then v' else dictGet rest k d

/-- Python dict assignment: replace the first entry with key `k` in place,
or append a fresh entry. -/
def dictSet (m : List (String × ℤ)) (k : String) (v : ℤ) : List (String × ℤ) :=
  match m with
  | [] => [(k, v)]
  | (k', v') :: rest => if k' = k then (k, v) :: rest else (k', v') :: dictSet rest k v

/-- The `durations` dict built by `categorize_events` before sorting: for
each event, for each of its categories, add the event's full duration to
that category's total. -/
def durationsOf (events : List Event) : List (String × ℤ) :=
  events.foldl
    (fun m e =>
      (extract_event_types e).foldl
        (fun m' t => dictSet m' t (dictGet m' t 0 + duration e)) m)
    []

/-- Descending order on accumulated duration, ties considered equal (the
sort key of the value-descending stable sort). -/
def byDurationDesc (a b : String × ℤ) : Prop := b.2 ≤ a.2

instance : DecidableRel byDurationDesc := fun a b => inferInstanceAs (Decidable (b.2 ≤ a.2))

instance : IsTotal (String × ℤ) byDurationDesc := ⟨fun a b => le_total b.2 a.2⟩

instance : IsTrans (String × ℤ) byDurationDesc :=
  ⟨fun _ _ _ hab hbc => le_trans hbc hab⟩

/-- The `categorize_events` function of src/analyze.py: build the
`durations` dict and return it sorted by value descending (Python's sort is
stable; a stable insertion sort computes the same list). -/
def categorize_events (events : List Event) : List (String × ℤ) :=
  List.insertionSort byDurationDesc (durationsOf events)

/-- The `categorize_events` method of `GCalAuditor`: same fold, using the
flag-aware category extraction. -/
def GCalAuditor.categorize_events (firstTagOnly : Bool) (events : List Event) :
    List (String × ℤ) :=
  List.insertionSort byDurationDesc
    (events.foldl
      (fun m e =>
        (extract_event_categories firstTagOnly e).foldl
          (fun m' t => dictSet m' t (dictGet m' t 0 + duration e)) m)
      [])

/-- Sum of the duration values recorded in a report. -/
def totalOf (m : List (String × ℤ)) : ℤ :=
  (m.map (fun p => p.2)).sum

/-- Sum of the individual event durations. -/
def durSum (events : List Event) : ℤ :=
  (events.map duration).sum

/-- Total duration accumulated against one category label. -/
def amountFor (label : String) (m : List (String × ℤ)) : ℤ :=
  ((m.filter (fun p => decide (p.1 = label))).map (fun p => p.2)).sum

/-- Round the rational `a / b` to the nearest integer, halves to even
(the rounding mode of Python `round`); `b` is positive at every use. -/
def divRoundHalfEven (a b : ℤ) : ℤ :=
  let q := Int.fdiv a b
  let r := a - q * b
  if 2 * r < b then q
  else if b < 2 * r then q + 1
  else if Int.emod q 2 = 0 then q else q + 1

/-- The percentage `round(seconds / total * 100, 2)` as an exact integer
count of hundredths of a percent. -/
def percentCents (secs total : ℤ) : ℤ :=
  divRoundHalfEven (secs * 10000) total

/-- Two-digit zero-padded rendering of a value below 100 (the `:02d`
format). -/
def fracPad (fp : Nat) : String :=
  (if fp < 10 then "0" else "") ++ toString fp

/-- Rendering of a rounded percentage with the `:.2f` format: always
exactly two digits after the decimal point. -/
def format2fCents (n : ℤ) : String :=
  String.mk ((toString (Int.ediv n 100)).data ++ '.' :: (fracPad (Int.emod n 100).natAbs).data)

/-- Rendering of a rounded percentage with the plain format (Python
`str` of the float): the shortest decimal form, so trailing zeros are
dropped down to at least one digit after the point. -/
def formatReprCents (n : ℤ) : String :=
  let ip := Int.ediv n 100
  let fp := (Int.emod n 100).natAbs
  if fp = 0 then toString ip ++ ".0"
  else if fp % 10 = 0 then toString ip ++ "." ++ toString (fp / 10)
  else toString ip ++ "." ++ fracPad fp

/-- The duration column: hours, colon, two-digit minutes, computed by
floor division and remainder on seconds (Python floor semantics). -/
def durationCell (secs : ℤ) : String :=
  let minutes := Int.fdiv secs 60
  let hours := Int.fdiv minutes 60
  let mins := Int.fmod minutes 60
  toString hours ++ ":" ++ (if mins < 10 then "0" else "") ++ toString mins

/-- One data row of the printed table: the three cell contents. -/
structure Row where
  label : String
  durCell : String
  percent : String
deriving DecidableEq, Repr

instance {ε α : Type} [DecidableEq ε] [DecidableEq α] : DecidableEq (Except ε α) :=
  fun a b =>
    match a, b with
    | Except.ok x, Except.ok y =>
      if h : x = y then Decidable.isTrue (by rw [h]) else Decidable.isFalse (by simp [h])
    | Except.error x, Except.error y =>
      if h : x = y then Decidable.isTrue (by rw [h]) else Decidable.isFalse (by simp [h])
    | Except.ok _, Except.error _ => Decidable.isFalse (by simp)
    | Except.error _, Except.ok _ => Decidable.isFalse (by simp)

/-- True exactly on successful results. -/
def isOkE {α : Type} (x : Except String α) : Bool :=
  match x with
  | Except.ok _ => true
  | Except.error _ => false

/-- The `print_analysis` function of src/analyze.py: raises the `max()`
`ValueError` on an empty mapping, otherwise renders one row per category
with the percent-of-day column over a fixed 86400-second denominator. -/
def print_analysis (categories : List (String × ℤ)) : Except String (List Row) :=
  match categories with
  | [] => Except.error "ValueError: max() arg is an empty sequence"
  | _ :: _ =>
    Except.ok (categories.map
      (fun p => ⟨p.1, durationCell p.2, formatReprCents (percentCents p.2 86400)⟩))

/-- The `print_analysis` method of `GCalAnalyzer` (src/gcal/analyze.py):
percent of the window total, rendered without the two-decimal format; a
zero window length raises `ZeroDivisionError`, and with `first_tag_only` a
synthesized Total row is appended. -/
def GCalAnalyzer.print_analysis (firstTagOnly : Bool) (categories : List (String × ℤ))
    (totalDuration : ℤ) : Except String (List Row) :=
  match categories with
  | [] => Except.error "ValueError: max() arg is an empty sequence"
  | _ :: _ =>
    if totalDuration = 0 then Except.error "ZeroDivisionError: float division by zero"
    else
      Except.ok
        ((categories.map (fun p =>
            ⟨p.1, durationCell p.2, formatReprCents (percentCents p.2 totalDuration)⟩)) ++
          (if firstTagOnly then
            [⟨"Total", durationCell (totalOf categories),
              formatReprCents (percentCents (totalOf categories) totalDuration)⟩]
          else []))

/-- The `print_analysis` method of `GCalAuditor` (src/gcal/audit.py): as
the analyzer's, but the percent cells use the two-decimal format. -/
def GCalAuditor.print_analysis (firstTagOnly : Bool) (categories : List (String × ℤ))
    (totalDuration : ℤ) : Except String (List Row) :=
  match categories with
  | [] => Except.error "ValueError: max() arg is an empty sequence"
  | _ :: _ =>
    if totalDuration = 0 then Except.error "ZeroDivisionError: float division by zero"
    else
      Except.ok
        ((categories.map (fun p =>
            ⟨p.1, durationCell p.2, format2fCents (percentCents p.2 totalDuration)⟩)) ++
          (if firstTagOnly then
            [⟨"Total", durationCell (totalOf categories),
              format2fCents (percentCents (totalOf categories) totalDuration)⟩]
          else []))

/-- Result of one `query_events` call: the fetched items on success, or
nothing when the HTTP error was caught and logged (the method then falls
off the end and returns None). -/
def GCalAuditor.query_events (response : Except Unit (List Event)) : Option (List Event) :=
  match response with
  | Except.ok items => some items
  | Except.error _ => none

/-- Python truthiness of the `events` variable: None and the empty list
are both falsy. -/
def pyTruthy (o : Option (List Event)) : Bool :=
  match o with
  | none => false
  | some l => !l.isEmpty

/-- What one audit run prints after fetching. -/
inductive AuditOutcome where
  | noEventsMessage
  | analysis (out : Except String (List Row))
deriving DecidableEq

/-- The `_audit` method of `GCalAuditor`: fetch, report "no events found"
and return cleanly when the result is falsy, otherwise categorize and
print. -/
def GCalAuditor.auditOnce (firstTagOnly : Bool) (response : Except Unit (List Event))
    (totalDuration : ℤ) : AuditOutcome :=
  let events := GCalAuditor.query_events response
  if pyTruthy events then
    AuditOutcome.analysis
      (GCalAuditor.print_analysis firstTagOnly
        (GCalAuditor.categorize_events firstTagOnly (events.getD [])) totalDuration)
  else AuditOutcome.noEventsMessage

/-- One per-day section emitted by the week decomposition: either the
"no events" marker or a printed sub-report together with the percentage
denominator that was in effect for it. -/
inductive DayOutput where
  | noEvents
  | report (analysis : Except String (List Row)) (denom : ℤ)
deriving DecidableEq

/-- A section is either the marker or a report whose denominator is one
full day. -/
def usesDayDenom (s : DayOutput) : Bool :=
  match s with
  | DayOutput.noEvents => true
  | DayOutput.report _ d => d = 86400

/-- The per-day loop of `audit_week`: starting at the week's first
midnight, while the cursor is at most the week's end, set the percentage
denominator to one day, select the events whose start day-of-month equals
the cursor's, and emit a marker or a sub-report; then advance one day.
`dayOf` maps a timestamp to its calendar day-of-month. -/
def GCalAuditor.audit_week_days (firstTagOnly : Bool) (dayOf : ℤ → ℕ)
    (events : List Event) (cur endT : ℤ) : List DayOutput :=
  if cur ≤ endT then
    (let curEvents := events.filter (fun e => decide (dayOf e.startSecs = dayOf cur))
     if curEvents.isEmpty then DayOutput.noEvents
     else
       DayOutput.report
         (GCalAuditor.print_analysis firstTagOnly
           (GCalAuditor.categorize_events firstTagOnly curEvents) 86400) 86400) ::
      GCalAuditor.audit_week_days firstTagOnly dayOf events (cur + 86400) endT
  else []
termination_by (endT + 1 - cur).toNat
decreasing_by simp_wf; omega

/-- The week decomposition of `audit_week`: the window runs from the start
date's midnight to 23:59:59 six days later, and the loop walks it one day
at a time. -/
def GCalAuditor.audit_week (firstTagOnly : Bool) (dayOf : ℤ → ℕ)
    (events : List Event) (startMidnight : ℤ) : List DayOutput :=
  GCalAuditor.audit_week_days firstTagOnly dayOf events startMidnight
    (startMidnight + 6 * 86400 + 86399)

/-- Characters after the last decimal point of a rendered cell. -/
def afterLastDot (s : String) : List Char :=
  (s.data.reverse.takeWhile (fun c => decide (c ≠ '.'))).reverse

/-- All category occurrences of the input events, in processing order. -/
def occList : List Event → List String
  | [] => []
  | e :: rest => extract_event_types e ++ occList rest

/-- The key order produced by repeated dict insertion: keep a key the first
time it shows up, ignore later occurrences. -/
def foldKeys (ks : List String) (ts : List String) : List String :=
  ts.foldl (fun ks' t => if t ∈ ks' then ks' else ks' ++ [t]) ks

/-- Deduplication keeping the first occurrence of every element. -/
def firstDedup : List String → List String
  | [] => []
  | a :: l => a :: firstDedup (l.filter (fun x => decide (x ≠ a)))
termination_by l => l.length
decreasing_by simp_wf; exact Nat.lt_succ_of_le (List.length_filter_le _ _)

/-- The report entries carrying one given accumulated duration, in report
order. -/
def filterDur (d : ℤ) (m : List (String × ℤ)) : List (String × ℤ) :=
  m.filter (fun p => decide (p.2 = d))

/-- The untagged standup meeting of the one-day scenario: 09:00 to 10:00. -/
def evStandup : Event := ⟨"Standup", none, 32400, 36000⟩

/-- The tagged coding block of the one-day scenario: 10:00 to 12:00. -/
def evCoding : Event := ⟨"Coding", some "[Tags: Work]", 36000, 43200⟩

/-- A zero-length event carrying two tags. -/
def evZeroDual : Event := ⟨"X", some "[Tags: A, B]", 0, 0⟩

/-- An event whose tag block is empty. -/
def evEmptyTags : Event := ⟨"Lunch", some "[Tags:]", 0, 3600⟩

/-- An event with no description at all. -/
def evNoDesc : Event := ⟨"Lunch", none, 0, 3600⟩

/-- An event listing the same tag twice. -/
def evDupTags : Event := ⟨"X", some "[Tags: Work, Work]", 0, 3600⟩

lemma splitOnComma_ne_nil (l : List Char) : splitOnComma l ≠ [] := by
  cases l with
  | nil => simp [splitOnComma]
  | cons c rest =>
    simp only [splitOnComma]
    split
    · simp
    · split <;> simp

lemma extract_event_types_ne_nil (e : Event) : extract_event_types e ≠ [] := by
  unfold extract_event_types
  cases e.description with
  | none => simp
  | some desc =>
    cases h : findTagBlock desc.data with
    | none => simp [h]
    | some cap => simp [h, List.map_eq_nil_iff, splitOnComma_ne_nil]

lemma totalOf_dictSet (m : List (String × ℤ)) (k : String) (d : ℤ) :
    totalOf (dictSet m k (dictGet m k 0 + d)) = totalOf m + d := by
  induction m with
  | nil => simp [dictSet, dictGet, totalOf]
  | cons p rest ih =>
    obtain ⟨k', v'⟩ := p
    by_cases h : k' = k
    · subst h
      simp [dictSet, dictGet, totalOf]
      ring
    · simp only [dictSet, dictGet, if_neg h, totalOf, List.map_cons, List.sum_cons] at ih ⊢
      omega

lemma amountFor_dictSet (m : List (String × ℤ)) (k lbl : String) (d : ℤ) :
    amountFor lbl (dictSet m k (dictGet m k 0 + d)) =
      amountFor lbl m + (if k = lbl then d else 0) := by
  induction m with
  | nil =>
    by_cases hk : k = lbl <;> simp [dictSet, dictGet, amountFor, List.filter_cons, hk]
  | cons p rest ih =>
    obtain ⟨k', v'⟩ := p
    by_cases h : k' = k
    · subst h
      by_cases hk : k' = lbl <;>
        simp [dictSet, dictGet, amountFor, List.filter_cons, hk] <;> ring
    · simp only [dictSet, dictGet, if_neg h] at ih ⊢
      by_cases hk : k' = lbl <;>
        simp [amountFor, List.filter_cons, hk] at ih ⊢ <;>
        omega

lemma keys_dictSet (m : List (String × ℤ)) (k : String) (v : ℤ) :
    (dictSet m k v).map Prod.fst =
      if k ∈ m.map Prod.fst then m.map Prod.fst else m.map Prod.fst ++ [k] := by
  induction m with
  | nil => simp [dictSet]
  | cons p rest ih =>
    obtain ⟨k', v'⟩ := p
    by_cases h : k' = k
    · subst h
      simp [dictSet]
    · simp only [dictSet, if_neg h, List.map_cons, ih, List.mem_cons]
      by_cases hk : k ∈ rest.map Prod.fst <;>
        simp [hk, h, Ne.symm h]

lemma totalOf_tagsFold (d : ℤ) :
    ∀ (ts : List String) (m : List (String × ℤ)),
      totalOf (ts.foldl (fun m' t => dictSet m' t (dictGet m' t 0 + d)) m) =
        totalOf m + (ts.length : ℤ) * d := by
  intro ts
  induction ts with
  | nil => intro m; simp
  | cons t ts ih =>
    intro m
    simp only [List.foldl_cons, List.length_cons]
    rw [ih, totalOf_dictSet]
    push_cast
    ring

lemma amountFor_tagsFold (lbl : String) (d : ℤ) :
    ∀ (ts : List String) (m : List (String × ℤ)),
      amountFor lbl (ts.foldl (fun m' t => dictSet m' t (dictGet m' t 0 + d)) m) =
        amountFor lbl m + (ts.count lbl : ℤ) * d := by
  intro ts
  induction ts with
  | nil => intro m; simp
  | cons t ts ih =>
    intro m
    simp only [List.foldl_cons]
    rw [ih, amountFor_dictSet]
    by_cases ht : t = lbl <;> simp [List.count_cons, ht] <;> push_cast <;> ring

lemma keys_tagsFold (d : ℤ) :
    ∀ (ts : List String) (m : List (String × ℤ)),
      ((ts.foldl (fun m' t => dictSet m' t (dictGet m' t 0 + d)) m).map Prod.fst) =
        foldKeys (m.map Prod.fst) ts := by
  intro ts
  induction ts with
  | nil => intro m; simp [foldKeys]
  | cons t ts ih =>
    intro m
    simp only [List.foldl_cons, foldKeys] at ih ⊢
    rw [ih, keys_dictSet]

lemma totalOf_durationsOf_aux :
    ∀ (events : List Event) (m : List (String × ℤ)),
      totalOf (events.foldl
          (fun m e => (extract_event_types e).foldl
            (fun m' t => dictSet m' t (dictGet m' t 0 + duration e)) m) m) =
        totalOf m +
          (events.map (fun e => ((extract_event_types e).length : ℤ) * duration e)).sum := by
  intro events
  induction events with
  | nil => intro m; simp
  | cons e events ih =>
    intro m
    simp only [List.foldl_cons, List.map_cons, List.sum_cons]
    rw [ih, totalOf_tagsFold]
    ring

lemma totalOf_nil : totalOf [] = 0 := rfl

lemma amountFor_nil (lbl : String) : amountFor lbl [] = 0 := rfl

lemma totalOf_durationsOf (events : List Event) :
    totalOf (durationsOf events) =
      (events.map (fun e => ((extract_event_types e).length : ℤ) * duration e)).sum := by
  have h := totalOf_durationsOf_aux events []
  simpa [durationsOf, totalOf_nil] using h

lemma amountFor_durationsOf_aux (lbl : String) :
    ∀ (events : List Event) (m : List (String × ℤ)),
      amountFor lbl (events.foldl
          (fun m e => (extract_event_types e).foldl
            (fun m' t => dictSet m' t (dictGet m' t 0 + duration e)) m) m) =
        amountFor lbl m +
          (events.map (fun e => ((extract_event_types e).count lbl : ℤ) * duration e)).sum := by
  intro events
  induction events with
  | nil => intro m; simp
  | cons e events ih =>
    intro m
    simp only [List.foldl_cons, List.map_cons, List.sum_cons]
    rw [ih, amountFor_tagsFold]
    ring

lemma amountFor_durationsOf (lbl : String) (events : List Event) :
    amountFor lbl (durationsOf events) =
      (events.map (fun e => ((extract_event_types e).count lbl : ℤ) * duration e)).sum := by
  have h := amountFor_durationsOf_aux lbl events []
  simpa [durationsOf, amountFor_nil] using h

lemma totalOf_perm {l l' : List (String × ℤ)} (h : l.Perm l') : totalOf l = totalOf l' := by
  simp only [totalOf]
  exact (h.map (fun p => p.2)).sum_eq

lemma amountFor_perm (lbl : String) {l l' : List (String × ℤ)} (h : l.Perm l') :
    amountFor lbl l = amountFor lbl l' := by
  simp only [amountFor]
  exact ((h.filter (fun p => decide (p.1 = lbl))).map (fun p => p.2)).sum_eq

lemma totalOf_categorize (events : List Event) :
    totalOf (categorize_events events) = totalOf (durationsOf events) :=
  totalOf_perm (List.perm_insertionSort byDurationDesc (durationsOf events))

lemma amountFor_categorize (lbl : String) (events : List Event) :
    amountFor lbl (categorize_events events) = amountFor lbl (durationsOf events) :=
  amountFor_perm lbl (List.perm_insertionSort byDurationDesc (durationsOf events))

lemma filterDur_orderedInsert (d : ℤ) (x : String × ℤ) (l : List (String × ℤ)) :
    filterDur d (List.orderedInsert byDurationDesc x l) =
      if x.2 = d then x :: filterDur d l else filterDur d l := by
  induction l with
  | nil => by_cases hx : x.2 = d <;> simp [List.orderedInsert, filterDur, hx]
  | cons b l ih =>
    simp only [List.orderedInsert]
    by_cases hr : byDurationDesc x b
    · rw [if_pos hr]
      by_cases hx : x.2 = d <;> by_cases hb : b.2 = d <;>
        simp [filterDur, List.filter_cons, hx, hb]
    · rw [if_neg hr]
      have hlt : x.2 < b.2 := lt_of_not_le hr
      by_cases hx : x.2 = d <;> by_cases hb : b.2 = d <;>
        simp only [filterDur, List.filter_cons, hx, hb, decide_eq_true_eq] at ih ⊢ <;>
        first
        | (exfalso; omega)
        | simp [filterDur, List.filter_cons, hx, hb, ih]

lemma filterDur_insertionSort (d : ℤ) (l : List (String × ℤ)) :
    filterDur d (List.insertionSort byDurationDesc l) = filterDur d l := by
  induction l with
  | nil => rfl
  | cons a l ih =>
    simp only [List.insertionSort]
    rw [filterDur_orderedInsert]
    by_cases ha : a.2 = d
    · rw [if_pos ha, ih]
      simp [filterDur, List.filter_cons, ha]
    · rw [if_neg ha, ih]
      simp [filterDur, List.filter_cons, ha]

lemma chain_categorize (l : List (String × ℤ)) :
    (List.insertionSort byDurationDesc l).Chain' byDurationDesc :=
  List.Pairwise.chain' (List.sorted_insertionSort byDurationDesc l)

lemma foldKeys_append (ks : List String) (l1 l2 : List String) :
    foldKeys ks (l1 ++ l2) = foldKeys (foldKeys ks l1) l2 := by
  simp [foldKeys, List.foldl_append]

lemma keys_durationsOf_aux :
    ∀ (events : List Event) (m : List (String × ℤ)),
      ((events.foldl
          (fun m e => (extract_event_types e).foldl
            (fun m' t => dictSet m' t (dictGet m' t 0 + duration e)) m) m).map Prod.fst) =
        foldKeys (m.map Prod.fst) (occList events) := by
  intro events
  induction events with
  | nil => intro m; simp [occList, foldKeys]
  | cons e events ih =>
    intro m
    simp only [List.foldl_cons, occList, foldKeys_append]
    rw [ih, keys_tagsFold]

lemma keys_durationsOf (events : List Event) :
    (durationsOf events).map Prod.fst = foldKeys [] (occList events) := by
  have h := keys_durationsOf_aux events []
  simpa [durationsOf] using h

lemma foldKeys_eq_firstDedup :
    ∀ (occ ks : List String),
      foldKeys ks occ = ks ++ firstDedup (occ.filter (fun t => decide (t ∉ ks))) := by
  intro occ
  induction occ with
  | nil => intro ks; simp [foldKeys, firstDedup]
  | cons t occ ih =>
    intro ks
    by_cases ht : t ∈ ks
    · have hstep : foldKeys ks (t :: occ) = foldKeys ks occ := by
        simp [foldKeys, ht]
      rw [hstep, ih]
      simp [List.filter_cons, ht]
    · have hstep : foldKeys ks (t :: occ) = foldKeys (ks ++ [t]) occ := by
        simp [foldKeys, ht]
      rw [hstep, ih]
      have hfil : occ.filter (fun x => decide (x ∉ ks ++ [t])) =
          (occ.filter (fun x => decide (x ∉ ks))).filter (fun x => decide (x ≠ t)) := by
        rw [List.filter_filter]
        apply List.filter_congr
        intro x _
        by_cases h1 : x ∈ ks <;> by_cases h2 : x = t <;> simp [h1, h2]
      rw [hfil]
      simp only [List.filter_cons, ht, decide_eq_true_eq, not_false_eq_true, decide_True,
        if_true]
      rw [firstDedup]
      simp

lemma sum_map_le {α : Type} (f g : α → ℤ) (l : List α) (h : ∀ x ∈ l, f x ≤ g x) :
    (l.map f).sum ≤ (l.map g).sum :=
  List.sum_le_sum h

lemma sum_map_eq_iff_of_le {α : Type} (f g : α → ℤ) :
    ∀ (l : List α), (∀ x ∈ l, f x ≤ g x) →
      (((l.map g).sum = (l.map f).sum) ↔ ∀ x ∈ l, g x = f x) := by
  intro l
  induction l with
  | nil => simp
  | cons a l ih =>
    intro h
    have ha : f a ≤ g a := h a (List.mem_cons_self a l)
    have hl : ∀ x ∈ l, f x ≤ g x := fun x hx => h x (List.mem_cons_of_mem a hx)
    have hsum : (l.map f).sum ≤ (l.map g).sum := sum_map_le f g l hl
    have hrec := ih hl
    simp only [List.map_cons, List.sum_cons]
    constructor
    · intro he
      have hga : g a = f a := by omega
      have hS : (l.map g).sum = (l.map f).sum := by omega
      intro x hx
      rcases List.mem_cons.mp hx with rfl | hxl
      · exact hga
      · exact hrec.mp hS x hxl
    · intro hall
      have hga : g a = f a := hall a (List.mem_cons_self a l)
      have hS : (l.map g).sum = (l.map f).sum :=
        hrec.mpr (fun x hx => hall x (List.mem_cons_of_mem a hx))
      omega

lemma one_le_types_length (e : Event) : (1 : ℤ) ≤ ((extract_event_types e).length : ℤ) := by
  have h := extract_event_types_ne_nil e
  have : 0 < (extract_event_types e).length := List.length_pos.mpr h
  exact_mod_cast this

lemma takeWhile_append_sat (p : Char → Bool) :
    ∀ (l1 : List Char) (x : Char) (l2 : List Char),
      (∀ c ∈ l1, p c = true) → p x = false → (l1 ++ x :: l2).takeWhile p = l1 := by
  intro l1
  induction l1 with
  | nil => intro x l2 _ hx; simp [List.takeWhile_cons, hx]
  | cons c l1 ih =>
    intro x l2 hall hx
    have hc : p c = true := hall c (List.mem_cons_self c l1)
    simp only [List.cons_append, List.takeWhile_cons, hc]
    rw [ih x l2 (fun d hd => hall d (List.mem_cons_of_mem c hd)) hx]
    simp

lemma fracPad_spec :
    ∀ fp : ℕ, fp < 100 →
      (fracPad fp).data.length = 2 ∧ ∀ c ∈ (fracPad fp).data, c ≠ '.' ∧ c.isDigit = true := by
  decide

lemma afterLastDot_format2fCents (n : ℤ) :
    (afterLastDot (format2fCents n)).length = 2 ∧
      ∀ c ∈ afterLastDot (format2fCents n), c.isDigit = true := by
  have h0 : 0 ≤ Int.emod n 100 := Int.emod_nonneg n (by norm_num)
  have h1 : Int.emod n 100 < 100 := Int.emod_lt_of_pos n (by norm_num)
  have hfp : (Int.emod n 100).natAbs < 100 := by omega
  have hspec := fracPad_spec _ hfp
  unfold format2fCents afterLastDot
  have hdata :
      (String.mk ((toString (Int.ediv n 100)).data ++
        '.' :: (fracPad (Int.emod n 100).natAbs).data)).data =
      (toString (Int.ediv n 100)).data ++ '.' :: (fracPad (Int.emod n 100).natAbs).data := rfl
  rw [hdata]
  rw [List.reverse_append]
  have hrev : ('.' :: (fracPad (Int.emod n 100).natAbs).data).reverse =
      (fracPad (Int.emod n 100).natAbs).data.reverse ++
        '.' :: ((toString (Int.ediv n 100)).data.reverse ++ []).take 0 ++ [] := by
    simp
  have htake :
      ((fracPad (Int.emod n 100).natAbs).data.reverse ++
          '.' :: (toString (Int.ediv n 100)).data.reverse).takeWhile
        (fun c => decide (c ≠ '.')) =
      (fracPad (Int.emod n 100).natAbs).data.reverse := by
    apply takeWhile_append_sat
    · intro c hc
      have hc' : c ∈ (fracPad (Int.emod n 100).natAbs).data := List.mem_reverse.mp hc
      simp [(hspec.2 c hc').1]
    · simp
  rw [List.reverse_cons, List.append_assoc, List.singleton_append, htake]
  constructor
  · simp [hspec.1]
  · intro c hc
    have hc' : c ∈ (fracPad (Int.emod n 100).natAbs).data := by
      simpa using hc
    exact (hspec.2 c hc').2

lemma audit_week_days_all_denom (ft : Bool) (dayOf : ℤ → ℕ) (events : List Event) :
    ∀ (n : ℕ) (cur endT : ℤ), (endT + 1 - cur).toNat ≤ n →
      (GCalAuditor.audit_week_days ft dayOf events cur endT).all usesDayDenom = true := by
  intro n
  induction n with
  | zero =>
    intro cur endT h
    rw [GCalAuditor.audit_week_days, if_neg (by omega)]
    rfl
  | succ n ih =>
    intro cur endT h
    rw [GCalAuditor.audit_week_days]
    by_cases hc : cur ≤ endT
    · rw [if_pos hc]
      simp only [List.all_cons, Bool.and_eq_true]
      constructor
      · split <;> simp [usesDayDenom]
      · exact ih (cur + 86400) endT (by omega)
    · rw [if_neg hc]
      rfl

lemma audit_week_length (ft : Bool) (dayOf : ℤ → ℕ) (events : List Event) (s : ℤ) :
    (GCalAuditor.audit_week ft dayOf events s).length = 7 := by
  unfold GCalAuditor.audit_week
  rw [GCalAuditor.audit_week_days, if_pos (by omega : s ≤ s + 6 * 86400 + 86399)]
  rw [GCalAuditor.audit_week_days, if_pos (by omega : s + 86400 ≤ s + 6 * 86400 + 86399)]
  rw [GCalAuditor.audit_week_days,
    if_pos (by omega : s + 86400 + 86400 ≤ s + 6 * 86400 + 86399)]
  rw [GCalAuditor.audit_week_days,
    if_pos (by omega : s + 86400 + 86400 + 86400 ≤ s + 6 * 86400 + 86399)]
  rw [GCalAuditor.audit_week_days,
    if_pos (by omega : s + 86400 + 86400 + 86400 + 86400 ≤ s + 6 * 86400 + 86399)]
  rw [GCalAuditor.audit_week_days,
    if_pos (by omega : s + 86400 + 86400 + 86400 + 86400 + 86400 ≤ s + 6 * 86400 + 86399)]
  rw [GCalAuditor.audit_week_days,
    if_pos (by omega :
      s + 86400 + 86400 + 86400 + 86400 + 86400 + 86400 ≤ s + 6 * 86400 + 86399)]
  rw [GCalAuditor.audit_week_days,
    if_neg (by omega :
      ¬ s + 86400 + 86400 + 86400 + 86400 + 86400 + 86400 + 86400 ≤ s + 6 * 86400 + 86399)]
  rfl

lemma auditor_print_isOk (ft : Bool) (cats : List (String × ℤ)) (total : ℤ) :
    isOkE (GCalAuditor.print_analysis ft cats total) = true ↔ (cats ≠ [] ∧ total ≠ 0) := by
  cases cats with
  | nil => simp [GCalAuditor.print_analysis, isOkE]
  | cons p rest =>
    by_cases ht : total = 0 <;> simp [GCalAuditor.print_analysis, isOkE, ht]

lemma analyzer_print_isOk (ft : Bool) (cats : List (String × ℤ)) (total : ℤ) :
    isOkE (GCalAnalyzer.print_analysis ft cats total) = true ↔ (cats ≠ [] ∧ total ≠ 0) := by
  cases cats with
  | nil => simp [GCalAnalyzer.print_analysis, isOkE]
  | cons p rest =>
    by_cases ht : total = 0 <;> simp [GCalAnalyzer.print_analysis, isOkE, ht]

lemma analyze_print_isOk (cats : List (String × ℤ)) :
    isOkE (print_analysis cats) = true ↔ cats ≠ [] := by
  cases cats with
  | nil => simp [print_analysis, isOkE]
  | cons p rest => simp [print_analysis, isOkE]

/-- C1 (amended): for every non-empty sequence of events with non-negative
durations, the sum of the duration values in the aggregated report is at
least the sum of the individual event durations, and the two sums are equal
exactly when every event of non-zero duration has exactly one category.
(The original "equality iff every event has exactly one category" fails for
zero-duration multi-category events.) -/
theorem C1_report_sum_vs_event_sum (events : List Event) (hne : events ≠ [])
    (hnn : ∀ e ∈ events, 0 ≤ duration e) :
    durSum events ≤ totalOf (categorize_events events) ∧
    (totalOf (categorize_events events) = durSum events ↔
      ∀ e ∈ events, duration e ≠ 0 → (extract_event_types e).length = 1) := by
  have hkey : totalOf (categorize_events events) =
      (events.map (fun e => ((extract_event_types e).length : ℤ) * duration e)).sum := by
    rw [totalOf_categorize, totalOf_durationsOf]
  have hpt : ∀ e ∈ events, duration e ≤ ((extract_event_types e).length : ℤ) * duration e := by
    intro e he
    have h1 := one_le_types_length e
    have h2 := hnn e he
    nlinarith
  constructor
  · rw [hkey]
    exact sum_map_le _ _ events hpt
  · rw [hkey]
    unfold durSum
    rw [sum_map_eq_iff_of_le _ _ events hpt]
    constructor
    · intro hall e he hd
      have hmul := hall e he
      have hz : (((extract_event_types e).length : ℤ) - 1) * duration e = 0 := by ring_nf; linarith
      rcases mul_eq_zero.mp hz with h | h
      · have : ((extract_event_types e).length : ℤ) = 1 := by linarith
        exact_mod_cast this
      · exact absurd h hd
    · intro hall e he
      by_cases hd : duration e = 0
      · simp [hd]
      · have h1 := hall e he hd
        rw [h1]
        simp

/-- C1 witness: the inequality instantiated at the one-event standup list. -/
theorem C1_report_sum_vs_event_sum_witness :
    durSum [evStandup] ≤ totalOf (categorize_events [evStandup]) :=
  (C1_report_sum_vs_event_sum [evStandup] (by decide) (by decide)).1

/-- C1 counterexample: a zero-length event with two tags is a non-empty
sequence of normalized events where the report total equals the event
duration sum although the event has two categories, refuting the claimed
"equality iff every event has exactly one category". -/
theorem C1_counterexample :
    [evZeroDual] ≠ [] ∧ (∀ e ∈ [evZeroDual], 0 ≤ duration e) ∧
    totalOf (categorize_events [evZeroDual]) = durSum [evZeroDual] ∧
    ¬ (∀ e ∈ [evZeroDual], (extract_event_types e).length = 1) := by decide

/-- C2 counterexample: an event whose description holds an empty tag block
does not fall back to its summary: extraction returns a list holding one
empty string, so the "non-empty strings" part of the claim fails too. -/
theorem C2_counterexample :
    extract_event_types evEmptyTags ≠ [evEmptyTags.summary] ∧
    "" ∈ extract_event_types evEmptyTags := by decide

/-- C2 (amended): extraction falls back to the summary exactly when the
description is absent or holds no tag block; the result is always a
non-empty list of categories, but a present-and-empty tag block yields a
list holding one empty string rather than the summary. -/
theorem C2_fallback (e : Event) :
    (e.description = none → extract_event_types e = [e.summary]) ∧
    (∀ desc : String, e.description = some desc →
      findTagBlock desc.data = none → extract_event_types e = [e.summary]) ∧
    extract_event_types e ≠ [] ∧
    extract_event_types evEmptyTags = [""] := by
  refine ⟨?_, ?_, extract_event_types_ne_nil e, by decide⟩
  · intro h
    simp [extract_event_types, h]
  · intro desc h hf
    simp [extract_event_types, h, hf]

/-- C2 witness: the fallback exercised on the description-free lunch event. -/
theorem C2_fallback_witness : extract_event_types evNoDesc = [evNoDesc.summary] :=
  (C2_fallback evNoDesc).1 rfl

/-- C3: the aggregated report is sorted by accumulated duration descending
(adjacent pairs), entries of any fixed duration keep the order they had in
the `durations` dict, and the keys of that dict are in first-encounter
order of the category occurrences of the input sequence. -/
theorem C3_ordering_and_stability (events : List Event) :
    (categorize_events events).Chain' byDurationDesc ∧
    (∀ d : ℤ, filterDur d (categorize_events events) = filterDur d (durationsOf events)) ∧
    (durationsOf events).map Prod.fst = firstDedup (occList events) := by
  refine ⟨chain_categorize _, fun d => filterDur_insertionSort d _, ?_⟩
  rw [keys_durationsOf, foldKeys_eq_firstDedup]
  simp

/-- C4 counterexample: in the one-day scenario the report is indeed
Work 7200 over Standup 3600, but the rendered percentages of an 86400
second day are 8.33 and 4.17, not the claimed 16.67 and 8.33. -/
theorem C4_counterexample :
    print_analysis (categorize_events [evStandup, evCoding]) =
      Except.ok [⟨"Work", "2:00", "8.33"⟩, ⟨"Standup", "1:00", "4.17"⟩] ∧
    (["8.33", "4.17"] : List String) ≠ ["16.67", "8.33"] := by decide

/-- C4 (amended): the one-day scenario aggregates to Work 7200 and
Standup 3600 in that order, and the formatter renders their percentages of
an 86400-second day as 8.33 and 4.17. -/
theorem C4_day_scenario :
    categorize_events [evStandup, evCoding] = [("Work", 7200), ("Standup", 3600)] ∧
    print_analysis (categorize_events [evStandup, evCoding]) =
      Except.ok [⟨"Work", "2:00", "8.33"⟩, ⟨"Standup", "1:00", "4.17"⟩] := by decide

/-- C5 counterexample: the analyze formatter renders the percentage of a
half-day category as the three-character cell 50.0, which has one digit
after the decimal point, not two. -/
theorem C5_counterexample :
    print_analysis [("Work", 43200)] = Except.ok [⟨"Work", "12:00", "50.0"⟩] ∧
    (afterLastDot "50.0").length ≠ 2 := by decide

/-- C5 (amended): the percent cell of every row the auditor formatter
emits is the two-decimal rendering of the rounded percentage, so it always
carries exactly two digits after the decimal point; the plain-format
variants of src/analyze.py and src/gcal/analyze.py may render fewer. -/
theorem C5_two_decimals_audit (ft : Bool) (cats : List (String × ℤ)) (total : ℤ)
    (rows : List Row) (h : GCalAuditor.print_analysis ft cats total = Except.ok rows) :
    ∀ r ∈ rows, (afterLastDot r.percent).length = 2 ∧
      ∀ c ∈ afterLastDot r.percent, c.isDigit = true := by
  cases cats with
  | nil => simp [GCalAuditor.print_analysis] at h
  | cons p rest =>
    by_cases ht : total = 0
    · simp [GCalAuditor.print_analysis, ht] at h
    · simp only [GCalAuditor.print_analysis, ht, if_neg, if_false, Except.ok.injEq] at h
      intro r hr
      rw [← h] at hr
      rcases List.mem_append.mp hr with hm | hm
      · rcases List.mem_map.mp hm with ⟨q, _, rfl⟩
        exact afterLastDot_format2fCents _
      · cases ft with
        | false => simp at hm
        | true =>
          simp only [if_true, List.mem_singleton] at hm
          subst hm
          exact afterLastDot_format2fCents _

/-- C5 witness: the two-decimal property read off a concrete audit row. -/
theorem C5_two_decimals_audit_witness : (afterLastDot "4.17").length = 2 :=
  (C5_two_decimals_audit false [("A", 3600)] 86400 [⟨"A", "1:00", "4.17"⟩] (by decide)
    ⟨"A", "1:00", "4.17"⟩ (by decide)).1

/-- C6 counterexample: the auditor formatter raises on a non-empty mapping
too, when the window length it divides by is zero. -/
theorem C6_counterexample :
    ([("A", (3600 : ℤ))] ≠ []) ∧
    isOkE (GCalAuditor.print_analysis false [("A", 3600)] 0) = false := by decide

/-- C6 (amended): the analyze formatter fails exactly on the empty
mapping; the auditor formatter fails exactly when the mapping is empty or
the window duration is zero (the extra zero-division failure). -/
theorem C6_formatter_failure (ft : Bool) (cats : List (String × ℤ)) (total : ℤ) :
    (isOkE (print_analysis cats) = true ↔ cats ≠ []) ∧
    (isOkE (GCalAuditor.print_analysis ft cats total) = true ↔ (cats ≠ [] ∧ total ≠ 0)) :=
  ⟨analyze_print_isOk cats, auditor_print_isOk ft cats total⟩

/-- C7: the week decomposition always walks exactly seven days, each
emitting either the "no events" marker or a sub-report whose percentage
denominator is the fixed 86400-second day. -/
theorem C7_week_seven_sections (ft : Bool) (dayOf : ℤ → ℕ) (events : List Event)
    (startMidnight : ℤ) :
    (GCalAuditor.audit_week ft dayOf events startMidnight).length = 7 ∧
    (GCalAuditor.audit_week ft dayOf events startMidnight).all usesDayDenom = true :=
  ⟨audit_week_length ft dayOf events startMidnight,
   audit_week_days_all_denom ft dayOf events
     ((startMidnight + 6 * 86400 + 86399) + 1 - startMidnight).toNat
     startMidnight (startMidnight + 6 * 86400 + 86399) le_rfl⟩

/-- C8: an HTTP failure of the fetch reaches the engine as None, which is
treated exactly like an empty event list: the run reports the no-events
message and returns a value instead of re-throwing, and its outcome is
indistinguishable from a genuinely empty fetch result. -/
theorem C8_fetch_failure_as_empty (ft : Bool) (total : ℤ) :
    GCalAuditor.auditOnce ft (Except.error ()) total = AuditOutcome.noEventsMessage ∧
    GCalAuditor.auditOnce ft (Except.error ()) total =
      GCalAuditor.auditOnce ft (Except.ok []) total :=
  ⟨rfl, rfl⟩

/-- C9: aggregation credits a label once per occurrence in the extracted
category list, so the duplicated tag block of a one-hour event yields a
single category carrying twice the duration; in general the amount booked
against a label is the occurrence count times the duration, summed over
the events. -/
theorem C9_duplicate_tags (events : List Event) (lbl : String) :
    amountFor lbl (categorize_events events) =
      (events.map (fun e => ((extract_event_types e).count lbl : ℤ) * duration e)).sum ∧
    extract_event_types evDupTags = ["Work", "Work"] ∧
    categorize_events [evDupTags] = [("Work", 7200)] := by
  refine ⟨?_, by decide, by decide⟩
  rw [amountFor_categorize, amountFor_durationsOf]

/-- C10: aggregating the empty event sequence yields the empty report
without failing; the failure is deferred to the formatters, which reject
the empty mapping. -/
theorem C10_empty_aggregation :
    categorize_events [] = [] ∧
    isOkE (print_analysis []) = false ∧
    (∀ (ft : Bool) (total : ℤ), isOkE (GCalAuditor.print_analysis ft [] total) = false) := by
  exact ⟨rfl, rfl, fun ft total => rfl⟩
